import Mathlib

/-!
Verification of the shape-detection pipeline of `dungeondraft-generator`
(`src/images.rs` and `src/main.rs`) against its natural-language
specification.  Contours are lists of integer points, images are opaque
tokens, and the external OpenCV calls that the source makes are modelled
either by their mathematical definitions (area, arc length, polygon
approximation, bounding rectangle) or, for the image-level and filesystem
stages, by an explicit environment of fallible call results.
-/

namespace DDraft

/-- A 2D integer point, as OpenCV stores contour points. -/
abbrev Pt := ℤ × ℤ

/-- A contour: an ordered closed sequence of integer points
(`images.rs`, contour Mats produced by `find_contours_with_hierarchy`). -/
abbrev Contour := List Pt

/-- Successive cyclic edges of a closed contour: each point paired with its
successor, the last point paired with the first. -/
def edges (c : Contour) : List (Pt × Pt) :=
  c.zip (c.drop 1 ++ c.take 1)

/-- Twice the signed enclosed area of a closed contour (shoelace formula),
kept in ℤ to stay exact. -/
def shoelace2 (c : Contour) : ℤ :=
  ((edges c).map (fun ab => ab.1.1 * ab.2.2 - ab.2.1 * ab.1.2)).sum

/-- Model of the external `imgproc::contour_area(&contour, false)` call:
the absolute enclosed area of the closed contour, by Green's formula. -/
def contourArea (c : Contour) : ℚ :=
  ((shoelace2 c).natAbs : ℚ) / 2

/-- Squared Euclidean distance between two integer points. -/
def distSq (a b : Pt) : ℤ :=
  (b.1 - a.1) ^ 2 + (b.2 - a.2) ^ 2

/-- Cross product of `b - a` with `p - a`; its absolute value is the distance
from `p` to the line through `a` and `b`, scaled by the length of `a`-`b`. -/
def cross2 (a b p : Pt) : ℤ :=
  (b.1 - a.1) * (p.2 - a.2) - (b.2 - a.2) * (p.1 - a.1)

/-- Model of the external `imgproc::arc_length(&contour, true)` call: the
perimeter (closed arc length) of the contour. -/
noncomputable def arcLength (c : Contour) : ℝ :=
  ((edges c).map (fun ab => Real.sqrt ((distSq ab.1 ab.2 : ℤ) : ℝ))).sum

/-- Index of the first maximum of `f` over a list, accumulator form. -/
def idxOfMaxAux (f : Pt → ℤ) : List Pt → ℕ → ℕ → ℤ → ℕ
  | [], _, bi, _ => bi
  | p :: r, i, bi, bv =>
      if bv < f p then idxOfMaxAux f r (i + 1) i (f p)
      else idxOfMaxAux f r (i + 1) bi bv

/-- Index of the first maximum of `f` over a list (0 on the empty list). -/
def idxOfMax (f : Pt → ℤ) (l : List Pt) : ℕ :=
  match l with
  | [] => 0
  | p :: r => idxOfMaxAux f r 1 0 (f p)

theorem idxOfMaxAux_lt (f : Pt → ℤ) :
    ∀ (l : List Pt) (i bi : ℕ) (bv : ℤ), bi < i →
      idxOfMaxAux f l i bi bv < i + l.length := by
  intro l
  induction l with
  | nil => intro i bi bv h; simpa [idxOfMaxAux] using h
  | cons p r ih =>
      intro i bi bv h
      simp only [idxOfMaxAux]
      by_cases hc : bv < f p
      · simp only [hc, if_true]
        have := ih (i + 1) i (f p) (Nat.lt_succ_self i)
        simpa [Nat.add_comm, Nat.add_left_comm, Nat.add_assoc] using this
      · simp only [hc, if_false]
        have := ih (i + 1) bi bv (Nat.lt_succ_of_lt h)
        simpa [Nat.add_comm, Nat.add_left_comm, Nat.add_assoc] using this

theorem idxOfMax_lt (f : Pt → ℤ) (l : List Pt) (h : l ≠ []) :
    idxOfMax f l < l.length := by
  match l with
  | [] => exact absurd rfl h
  | p :: r =>
      have := idxOfMaxAux_lt f r 1 0 (f p) Nat.one_pos
      simp only [idxOfMax, List.length_cons]
      omega

theorem take_idxOfMax_length_lt (f : Pt → ℤ) (l : List Pt) (h : l ≠ []) :
    (l.take (idxOfMax f l)).length < l.length := by
  have hk := idxOfMax_lt f l h
  simp only [List.length_take]
  omega

theorem drop_succ_length_lt (l : List Pt) (k : ℕ) (h : l ≠ []) :
    (l.drop (k + 1)).length < l.length := by
  have : 0 < l.length := List.length_pos.mpr h
  simp only [List.length_drop]
  omega

/-- Modelled from the spec: one Douglas-Peucker pass over the open chain
from `a` to `b` with interior points `mid` (the recursive core of the
source's external `imgproc::approx_poly_dp` call).  The chain is split at
the interior point farthest from the line `a`-`b`; if that deviation is
within the tolerance the interior is dropped.  As in OpenCV, the deviation
test compares the squared cross product against `ε² · |ab|²`, and the
result lists the simplified chain's vertices from `a` up to but excluding
`b`. -/
noncomputable def dpOpen (ε2 : ℝ) (a : Pt) (mid : List Pt) (b : Pt) : List Pt :=
  match mid with
  | [] => [a]
  | m0 :: ms =>
      let k := idxOfMax (fun p => (cross2 a b p) ^ 2) (m0 :: ms)
      let p := (m0 :: ms).getD k m0
      if (((cross2 a b p) ^ 2 : ℤ) : ℝ) > ε2 * ((distSq a b : ℤ) : ℝ) then
        dpOpen ε2 a ((m0 :: ms).take k) p ++ dpOpen ε2 p ((m0 :: ms).drop (k + 1)) b
      else [a]
termination_by mid.length
decreasing_by
  · exact take_idxOfMax_length_lt _ _ (by simp)
  · exact drop_succ_length_lt _ _ (by simp)

/-- Modelled from the spec: Douglas-Peucker simplification of a closed
contour (the external `imgproc::approx_poly_dp(.., closed = true)` call).
The contour is split at the point farthest from its first vertex and each
of the two resulting chains is simplified with `dpOpen`. -/
noncomputable def dpClosed (ε2 : ℝ) (c : Contour) : List Pt :=
  match c with
  | [] => []
  | [p] => [p]
  | p0 :: m0 :: ms =>
      let rest := m0 :: ms
      let k := idxOfMax (fun p => distSq p0 p) rest
      let m := rest.getD k m0
      dpOpen ε2 p0 (rest.take k) m ++ dpOpen ε2 m (rest.drop (k + 1)) p0

/-- Modelled from the spec: the external `imgproc::approx_poly_dp` call with
tolerance `ε`; as in OpenCV the tolerance is squared before use. -/
noncomputable def approxPolyDP (c : Contour) (ε : ℝ) : List Pt :=
  dpClosed (ε ^ 2) c

/-- Smallest x-coordinate of a contour (0 for the empty contour). -/
def minX : Contour → ℤ
  | [] => 0
  | p :: r => (r.map Prod.fst).foldl min p.1

/-- Smallest y-coordinate of a contour (0 for the empty contour). -/
def minY : Contour → ℤ
  | [] => 0
  | p :: r => (r.map Prod.snd).foldl min p.2

/-- Largest x-coordinate of a contour (0 for the empty contour). -/
def maxX : Contour → ℤ
  | [] => 0
  | p :: r => (r.map Prod.fst).foldl max p.1

/-- Largest y-coordinate of a contour (0 for the empty contour). -/
def maxY : Contour → ℤ
  | [] => 0
  | p :: r => (r.map Prod.snd).foldl max p.2

/-- An axis-aligned rectangle as returned by OpenCV's `bounding_rect`:
top-left corner plus width and height. -/
structure Rect where
  x : ℤ
  y : ℤ
  width : ℤ
  height : ℤ
  deriving DecidableEq, Repr

/-- Model of the external `imgproc::bounding_rect(&contour)` call: the
minimal axis-aligned rectangle containing every point of the contour, with
OpenCV's inclusive pixel convention `width = max - min + 1`. -/
def boundingRect (c : Contour) : Rect :=
  { x := minX c
    y := minY c
    width := maxX c - minX c + 1
    height := maxY c - minY c + 1 }

/-- The `Point` struct of `images.rs` (lines 10-14): an x/y pair. -/
structure Point where
  x : ℤ
  y : ℤ
  deriving DecidableEq, Repr

/-- The `Shape` struct of `images.rs` (lines 22-27): a vertex count, the
single stored `coordinates` point, and the originating contour. -/
structure Shape where
  vertice_count : ℕ
  coordinates : Point
  contour : Contour
  deriving DecidableEq, Repr

/-- The Shape built by the loop body of `find_shapes` in `images.rs`
(lines 70-82): vertex count of the Douglas-Peucker approximation at
`epsilon = 0.04 * arc_length`, the top-left corner of the contour's
bounding rectangle, and the contour itself. -/
noncomputable def mkShape (c : Contour) : Shape :=
  { vertice_count := (approxPolyDP c (0.04 * arcLength c)).length
    coordinates := { x := (boundingRect c).x, y := (boundingRect c).y }
    contour := c }

/-- The contour loop of `find_shapes` in `images.rs` (lines 66-88): every
contour whose area strictly exceeds 100 yields a `Shape`, all others are
skipped. -/
noncomputable def shapesOf (contours : List Contour) : List Shape :=
  contours.filterMap fun c =>
    if contourArea c > 100 then some (mkShape c) else none

/-- Index of the last occurrence of a dot in a character list, or `none`. -/
def lastDotIdx : List Char → Option ℕ
  | [] => none
  | ch :: rest =>
      match lastDotIdx rest with
      | some j => some (j + 1)
      | none => if ch = '.' then some (0 : ℕ) else none

/-- Model of Rust's `PathBuf::set_extension` on a file name: if the name has
an extension (a dot at a position after the first character), everything
from that last dot on is replaced by `"." ++ ext`; otherwise `"." ++ ext`
is appended.  This is the `set_extension("shapes.png")` call of
`trace_shapes` in `images.rs` (line 177). -/
def setExtension (s : List Char) (ext : List Char) : List Char :=
  match lastDotIdx s with
  | some j => if j = 0 then s ++ '.' :: ext else s.take j ++ '.' :: ext
  | none => s ++ '.' :: ext

/-- An opaque decoded image token; the pipeline never inspects pixel data
itself, it only passes images between external OpenCV calls. -/
abbrev Img := ℕ

/-- One `imgproc::draw_contours` call as issued by the source: the full
contour vector, the contour index, the BGRA color scalar, the line
thickness, and the hierarchy max level. -/
structure DrawOp where
  contours : List Contour
  idx : ℤ
  color : ℤ × ℤ × ℤ × ℤ
  thickness : ℤ
  maxLevel : ℤ
  deriving DecidableEq, Repr

/-- An annotated image: the copied base image together with the list of
draw calls applied to it, in order.  An empty list of draw calls means the
image is pixel-identical to the base. -/
abbrev AnnImage := Img × List DrawOp

/-- The contours an OpenCV `draw_contours` call renders: index `-1` (as
passed by the source) selects every contour of the vector, a nonnegative
index selects the single contour at that position. -/
def opTargets (op : DrawOp) : List Contour :=
  if op.idx < 0 then op.contours else (op.contours.drop op.idx.toNat).take 1

/-- Every contour rendered onto an annotated image by its draw calls. -/
def drawnContours (ann : AnnImage) : List Contour :=
  ann.2.foldr (fun op acc => opTargets op ++ acc) []

/-- A filesystem write: destination file name and the image written. -/
abbrev FileWrite := List Char × AnnImage

/-- Results of the fallible external calls a pipeline invocation makes:
`imread`, `cvt_color`, `canny`, `find_contours_with_hierarchy`,
`copy_to`, `contour_area`, `arc_length`, `approx_poly_dp`,
`bounding_rect`, `draw_contours`, `imwrite`, and (for the `info`
subcommand of `main.rs`) opening and JSON-parsing a map file.  Each field
gives the outcome the external world would return for that call; for the
point-list math calls the success value is the one given by the
mathematical model (`contourArea`, `arcLength`, `approxPolyDP`,
`boundingRect`), so only the `?` error path is environment-chosen. -/
structure Env where
  imreadRes : Except String Img
  cvtColorRes : Img → Except String Img
  cannyRes : Img → Except String Img
  findContoursRes : Img → Except String (List Contour)
  copyRes : Img → Except String Unit
  areaRes : Contour → Except String Unit
  arcRes : Contour → Except String Unit
  approxRes : Contour → Except String Unit
  brectRes : Contour → Except String Unit
  drawRes : DrawOp → Except String Unit
  imwriteRes : List Char → AnnImage → Except String Unit
  readMapRes : List Char → Except String Unit

/-- The `find_shapes` function of `images.rs` (lines 35-89): decode,
grayscale, edge-detect, extract contours, then run the pure shape loop.
The second component records every filesystem write performed; the
function contains no `imwrite` call, so it is `[]` on every path. -/
noncomputable def find_shapes_run (env : Env) :
    Except String (List Shape) × List FileWrite :=
  match env.imreadRes with
  | .error e => (.error e, [])
  | .ok img =>
      match env.cvtColorRes img with
      | .error e => (.error e, [])
      | .ok gray =>
          match env.cannyRes gray with
          | .error e => (.error e, [])
          | .ok edgesImg =>
              match env.findContoursRes edgesImg with
              | .error e => (.error e, [])
              | .ok cs => (.ok (shapesOf cs), [])

/-- The drawing loop shared by `trace_shapes` in `images.rs` (lines
123-174) and `find_shapes` in `main.rs` (lines 65-94): for every contour
the `contour_area` call runs first and can fail with `?`; for a contour
whose area strictly exceeds 100 the `arc_length`, `approx_poly_dp` and
`bounding_rect` calls run (each can fail with `?`, their success values
play no further role in the loop) and then one `draw_contours` call `op`
is issued (always on the whole contour vector).  Any failing call aborts
the loop.  Returns the list of draw calls performed. -/
def traceLoop (env : Env) (op : DrawOp) : List Contour → Except String (List DrawOp)
  | [] => .ok []
  | c :: rest =>
      match env.areaRes c with
      | .error e => .error e
      | .ok _ =>
          if contourArea c > 100 then
            match env.arcRes c with
            | .error e => .error e
            | .ok _ =>
                match env.approxRes c with
                | .error e => .error e
                | .ok _ =>
                    match env.brectRes c with
                    | .error e => .error e
                    | .ok _ =>
                        match env.drawRes op with
                        | .error e => .error e
                        | .ok _ =>
                            match traceLoop env op rest with
                            | .error e => .error e
                            | .ok ops => .ok (op :: ops)
          else traceLoop env op rest

/-- The common body of the two trace-style functions: the stages of
`find_shapes_run`, then the `copy_to` of the decoded image, then the
drawing loop with the given color and max level, then a single `imwrite`
of the annotated copy to the path obtained by
`set_extension("shapes.png")`.  The write log gains its one entry only
when the `imwrite` call itself succeeds. -/
def trace_core (color : ℤ × ℤ × ℤ × ℤ) (maxLevel : ℤ) (env : Env)
    (path : List Char) : Except String (List Char) × List FileWrite :=
  match env.imreadRes with
  | .error e => (.error e, [])
  | .ok img =>
      match env.cvtColorRes img with
      | .error e => (.error e, [])
      | .ok gray =>
          match env.cannyRes gray with
          | .error e => (.error e, [])
          | .ok edgesImg =>
              match env.findContoursRes edgesImg with
              | .error e => (.error e, [])
              | .ok cs =>
                  match env.copyRes img with
                  | .error e => (.error e, [])
                  | .ok _ =>
                      match traceLoop env ⟨cs, -1, color, 2, maxLevel⟩ cs with
                      | .error e => (.error e, [])
                      | .ok ops =>
                          match env.imwriteRes (setExtension path ("shapes.png".toList))
                              (img, ops) with
                          | .error e => (.error e, [])
                          | .ok _ => (.ok (setExtension path ("shapes.png".toList)),
                              [(setExtension path ("shapes.png".toList), (img, ops))])

/-- The `trace_shapes` function of `images.rs` (lines 91-182): green
(BGRA scalar (0, 255, 0, 0)) contours of thickness 2, hierarchy max level
1. -/
def trace_shapes_run (env : Env) (path : List Char) :
    Except String (List Char) × List FileWrite :=
  trace_core (0, 255, 0, 0) 1 env path

/-- The `find_shapes` function of `main.rs` (lines 33-102): the trace
variant the `shapes` subcommand calls, with color scalar (255, 0, 0, 0)
and hierarchy max level 2. -/
def main_find_shapes_run (env : Env) (path : List Char) :
    Except String (List Char) × List FileWrite :=
  trace_core (255, 0, 0, 0) 2 env path

/-- A parsed subcommand of `main.rs`: `shapes` or `info` with an optional
path argument, `generate`, or no subcommand. -/
inductive Cmd where
  | shapes : Option (List Char) → Cmd
  | info : Option (List Char) → Cmd
  | generate : Cmd
  | noCmd : Cmd

/-- The subcommand dispatch of `main` in `main.rs` (lines 259-278): the
`shapes` branch calls `find_shapes` and discards its result with
`let _ = ...`; the `info` branch propagates file-open and JSON-parse
errors with `?`; `generate` and the empty match arm do nothing.  The
second component is the write log of the dispatched call. -/
def main_run (env : Env) (cmd : Cmd) : Except String Unit × List FileWrite :=
  match cmd with
  | .shapes (some p) =>
      let r := main_find_shapes_run env p
      (.ok (), r.2)
  | .shapes none => (.ok (), [])
  | .info (some p) =>
      (match env.readMapRes p with
       | .error e => (.error e, [])
       | .ok _ => (.ok (), []))
  | .info none => (.ok (), [])
  | .generate => (.ok (), [])
  | .noCmd => (.ok (), [])

/-- A 10 by 10 axis-aligned square contour, enclosed area exactly 100. -/
def cSquare10 : Contour := [(0, 0), (10, 0), (10, 10), (0, 10)]

/-- A 101 by 1 axis-aligned rectangle contour, enclosed area exactly 101. -/
def cRect101 : Contour := [(0, 0), (101, 0), (101, 1), (0, 1)]

/-- A 1000 by 1 axis-aligned rectangle contour: area 1000 (retained by the
area filter), perimeter 2002, so the approximation tolerance 0.04 × 2002
far exceeds its 1-pixel thickness. -/
def cThin : Contour := [(0, 0), (1000, 0), (1000, 1), (0, 1)]

/-- A 20 by 11 rectangle contour at the origin, enclosed area 220. -/
def cRect20 : Contour := [(0, 0), (20, 0), (20, 11), (0, 11)]

/-- An 11 by 11 square contour at the origin, enclosed area 121. -/
def cSquare11 : Contour := [(0, 0), (11, 0), (11, 11), (0, 11)]

/-- A 5 by 5 square contour, enclosed area 25 (rejected by the filter). -/
def cSmall : Contour := [(0, 0), (5, 0), (5, 5), (0, 5)]

/-- A fully successful external environment whose contour extraction
returns `cs`: decoding yields image token 0 and every fallible call
succeeds. -/
def okEnv (cs : List Contour) : Env :=
  { imreadRes := .ok 0
    cvtColorRes := fun _ => .ok 1
    cannyRes := fun _ => .ok 2
    findContoursRes := fun _ => .ok cs
    copyRes := fun _ => .ok ()
    areaRes := fun _ => .ok ()
    arcRes := fun _ => .ok ()
    approxRes := fun _ => .ok ()
    brectRes := fun _ => .ok ()
    drawRes := fun _ => .ok ()
    imwriteRes := fun _ _ => .ok ()
    readMapRes := fun _ => .ok () }

/-- An environment in which the initial image decode fails. -/
def failEnv : Env :=
  { imreadRes := .error "io"
    cvtColorRes := fun _ => .ok 1
    cannyRes := fun _ => .ok 2
    findContoursRes := fun _ => .ok []
    copyRes := fun _ => .ok ()
    areaRes := fun _ => .ok ()
    arcRes := fun _ => .ok ()
    approxRes := fun _ => .ok ()
    brectRes := fun _ => .ok ()
    drawRes := fun _ => .ok ()
    imwriteRes := fun _ _ => .ok ()
    readMapRes := fun _ => .ok () }

/-- An environment identical to `okEnv [cRect20, cSmall]` except that the
`approx_poly_dp` call fails, as it would on a degenerate contour: the
area/approximation stage of the trace pipeline errors out. -/
def approxFailEnv : Env :=
  { imreadRes := .ok 0
    cvtColorRes := fun _ => .ok 1
    cannyRes := fun _ => .ok 2
    findContoursRes := fun _ => .ok [cRect20, cSmall]
    copyRes := fun _ => .ok ()
    areaRes := fun _ => .ok ()
    arcRes := fun _ => .ok ()
    approxRes := fun _ => .error "degenerate"
    brectRes := fun _ => .ok ()
    drawRes := fun _ => .ok ()
    imwriteRes := fun _ _ => .ok ()
    readMapRes := fun _ => .ok () }

theorem mem_shapesOf_iff (cs : List Contour) (s : Shape) :
    s ∈ shapesOf cs ↔ ∃ c ∈ cs, contourArea c > 100 ∧ s = mkShape c := by
  simp only [shapesOf, List.mem_filterMap]
  constructor
  · rintro ⟨c, hc, hsome⟩
    by_cases h : contourArea c > 100
    · exact ⟨c, hc, h, by simpa [h] using hsome.symm⟩
    · simp [h] at hsome
  · rintro ⟨c, hc, h, hs⟩
    exact ⟨c, hc, by simp [h, hs]⟩

theorem shapesOf_cons_pos (c : Contour) (cs : List Contour)
    (h : contourArea c > 100) :
    shapesOf (c :: cs) = mkShape c :: shapesOf cs := by
  simp [shapesOf, h]

theorem shapesOf_cons_neg (c : Contour) (cs : List Contour)
    (h : ¬ contourArea c > 100) :
    shapesOf (c :: cs) = shapesOf cs := by
  simp [shapesOf, h]

theorem shapesOf_eq_nil (cs : List Contour)
    (h : ∀ c ∈ cs, ¬ contourArea c > 100) : shapesOf cs = [] := by
  induction cs with
  | nil => rfl
  | cons c rest ih =>
      rw [shapesOf_cons_neg c rest (h c (List.mem_cons_self c rest))]
      exact ih fun d hd => h d (List.mem_cons_of_mem c hd)

theorem dpOpen_ne_nil_aux (ε2 : ℝ) :
    ∀ (n : ℕ) (mid : List Pt) (a b : Pt), mid.length ≤ n →
      dpOpen ε2 a mid b ≠ [] := by
  intro n
  induction n with
  | zero =>
      intro mid a b h
      have hm : mid = [] := List.eq_nil_of_length_eq_zero (Nat.le_zero.mp h)
      subst hm
      simp [dpOpen]
  | succ n ih =>
      intro mid a b h
      match mid with
      | [] => simp [dpOpen]
      | m0 :: ms =>
          have htake : (List.take (idxOfMax (fun p => (cross2 a b p) ^ 2) (m0 :: ms))
              (m0 :: ms)).length ≤ n := by
            have := take_idxOfMax_length_lt (fun p => (cross2 a b p) ^ 2) (m0 :: ms) (by simp)
            simp only [List.length_take, List.length_cons] at this h ⊢
            omega
          have hdrop : (List.drop (idxOfMax (fun p => (cross2 a b p) ^ 2) (m0 :: ms) + 1)
              (m0 :: ms)).length ≤ n := by
            simp only [List.length_drop, List.length_cons]
            simp only [List.length_cons] at h
            omega
          rw [dpOpen]
          split
          · intro hcontra
            rw [List.append_eq_nil] at hcontra
            exact ih _ a _ htake hcontra.1
          · simp

theorem dpOpen_ne_nil (ε2 : ℝ) (mid : List Pt) (a b : Pt) :
    dpOpen ε2 a mid b ≠ [] :=
  dpOpen_ne_nil_aux ε2 mid.length mid a b le_rfl

theorem two_le_dpClosed_length (ε2 : ℝ) (c : Contour) (h : 2 ≤ c.length) :
    2 ≤ (dpClosed ε2 c).length := by
  match c with
  | [] => simp at h
  | [p] => simp at h
  | p0 :: m0 :: ms =>
      rw [dpClosed]
      rw [List.length_append]
      have h1 := dpOpen_ne_nil ε2
        ((m0 :: ms).take (idxOfMax (fun p => distSq p0 p) (m0 :: ms))) p0
        ((m0 :: ms).getD (idxOfMax (fun p => distSq p0 p) (m0 :: ms)) m0)
      have h2 := dpOpen_ne_nil ε2
        ((m0 :: ms).drop (idxOfMax (fun p => distSq p0 p) (m0 :: ms) + 1))
        ((m0 :: ms).getD (idxOfMax (fun p => distSq p0 p) (m0 :: ms)) m0) p0
      have l1 := List.length_pos.mpr h1
      have l2 := List.length_pos.mpr h2
      omega

theorem shoelace2_eq_zero_of_short (c : Contour) (h : c.length ≤ 2) :
    shoelace2 c = 0 := by
  match c with
  | [] => rfl
  | [p] => simp [shoelace2, edges]
  | [p, q] =>
      simp only [shoelace2, edges, List.drop, List.take, List.zip, List.zipWith,
        List.map, List.sum_cons, List.sum_nil, List.append_nil, List.nil_append,
        List.cons_append]
      ring
  | _ :: _ :: _ :: _ => simp at h

theorem two_le_length_of_area (c : Contour) (h : contourArea c > 100) :
    2 ≤ c.length := by
  by_contra hlt
  push_neg at hlt
  have hz : shoelace2 c = 0 := shoelace2_eq_zero_of_short c (by omega)
  rw [contourArea, hz] at h
  norm_num at h

theorem traceLoop_all_ok (env : Env) (op : DrawOp)
    (hD : env.drawRes op = .ok ()) :
    ∀ cs : List Contour, (∀ c ∈ cs, env.areaRes c = .ok ()) →
      (∀ c ∈ cs, contourArea c > 100 →
        env.arcRes c = .ok () ∧ env.approxRes c = .ok () ∧
          env.brectRes c = .ok ()) →
      traceLoop env op cs =
        .ok (List.replicate (cs.countP fun c => decide (contourArea c > 100)) op) := by
  intro cs
  induction cs with
  | nil => intro _ _; rfl
  | cons c rest ih =>
      intro hA hR
      rw [traceLoop, hA c (List.mem_cons_self c rest)]
      simp only []
      by_cases hc : contourArea c > 100
      · obtain ⟨h1, h2, h3⟩ := hR c (List.mem_cons_self c rest) hc
        rw [if_pos hc, h1]
        simp only []
        rw [h2]
        simp only []
        rw [h3]
        simp only []
        rw [hD]
        simp only []
        rw [ih (fun d hd => hA d (List.mem_cons_of_mem c hd))
          (fun d hd => hR d (List.mem_cons_of_mem c hd))]
        simp [List.countP_cons, hc, List.replicate_succ]
      · rw [if_neg hc, ih (fun d hd => hA d (List.mem_cons_of_mem c hd))
          (fun d hd => hR d (List.mem_cons_of_mem c hd))]
        simp [List.countP_cons, hc]

theorem lastDotIdx_of_no_dot (l : List Char) (h : '.' ∉ l) :
    lastDotIdx l = none := by
  induction l with
  | nil => rfl
  | cons c r ih =>
      simp only [List.mem_cons, not_or] at h
      have hc : ¬ (c = '.') := fun hcc => h.1 hcc.symm
      rw [lastDotIdx, ih h.2]
      simp [hc]

theorem lastDotIdx_append (stem ext : List Char) (hx : '.' ∉ ext) :
    lastDotIdx (stem ++ '.' :: ext) = some stem.length := by
  induction stem with
  | nil =>
      simp only [List.nil_append, lastDotIdx, lastDotIdx_of_no_dot ext hx]
      simp
  | cons c r ih =>
      rw [List.cons_append, lastDotIdx, ih]
      rfl

theorem setExtension_append (stem ext e2 : List Char) (hs : stem ≠ [])
    (hx : '.' ∉ ext) :
    setExtension (stem ++ '.' :: ext) e2 = stem ++ '.' :: e2 := by
  have h0 : stem.length ≠ 0 := fun h => hs (List.eq_nil_of_length_eq_zero h)
  simp only [setExtension, lastDotIdx_append stem ext hx]
  rw [if_neg h0]
  congr 1
  exact List.take_left stem ('.' :: ext)

theorem contourArea_gt_iff (c : Contour) :
    contourArea c > 100 ↔ 200 < (shoelace2 c).natAbs := by
  rw [contourArea, gt_iff_lt, lt_div_iff₀ (by norm_num : (0 : ℚ) < 2)]
  norm_cast

/-- C1: for every contour in the extraction output, `find_shapes` creates a
Shape from it if and only if its enclosed area is strictly greater
than 100. -/
theorem spec_c1 (cs : List Contour) (c : Contour) (hmem : c ∈ cs) :
    (∃ s ∈ shapesOf cs, s.contour = c) ↔ contourArea c > 100 := by
  constructor
  · rintro ⟨s, hs, hcont⟩
    rcases (mem_shapesOf_iff cs s).mp hs with ⟨d, _, hda, rfl⟩
    have hdc : d = c := hcont
    rwa [hdc] at hda
  · intro h
    exact ⟨mkShape c, (mem_shapesOf_iff cs _).mpr ⟨c, hmem, h, rfl⟩, rfl⟩

/-- C1 witness: in a run over the square of area exactly 100 and the
rectangle of area 101, only the rectangle yields a Shape. -/
theorem spec_c1_witness :
    (¬ ∃ s ∈ shapesOf [cSquare10, cRect101], s.contour = cSquare10) ∧
    (∃ s ∈ shapesOf [cSquare10, cRect101], s.contour = cRect101) := by
  constructor
  · exact (spec_c1 [cSquare10, cRect101] cSquare10 (by simp)).not.mpr
      (by rw [contourArea_gt_iff]; decide)
  · exact (spec_c1 [cSquare10, cRect101] cRect101 (by simp)).mpr
      (by rw [contourArea_gt_iff]; decide)

/-- C5: every Shape's vertex count is the size of the Douglas-Peucker
approximation of its contour at tolerance 0.04 times the contour's closed
arc length. -/
theorem spec_c5 (cs : List Contour) (s : Shape) (h : s ∈ shapesOf cs) :
    s.vertice_count =
      (approxPolyDP s.contour (0.04 * arcLength s.contour)).length := by
  rcases (mem_shapesOf_iff cs s).mp h with ⟨c, _, _, rfl⟩
  rfl

/-- C5 witness: the Shape produced from the area-101 rectangle satisfies
the vertex-count equation. -/
theorem spec_c5_witness :
    ∃ s ∈ shapesOf [cRect101],
      s.vertice_count =
        (approxPolyDP s.contour (0.04 * arcLength s.contour)).length := by
  refine ⟨mkShape cRect101, (mem_shapesOf_iff _ _).mpr ⟨cRect101, by simp, by rw [contourArea_gt_iff]; decide, rfl⟩, ?_⟩
  exact spec_c5 [cRect101] (mkShape cRect101)
    ((mem_shapesOf_iff _ _).mpr ⟨cRect101, by simp, by rw [contourArea_gt_iff]; decide, rfl⟩)

/-- C9 (amended): every Shape's vertex count is at least 2; the bound 3
claimed by the spec fails (see the counterexample). -/
theorem spec_c9_amended (cs : List Contour) (s : Shape) (h : s ∈ shapesOf cs) :
    2 ≤ s.vertice_count := by
  rcases (mem_shapesOf_iff cs s).mp h with ⟨c, _, harea, rfl⟩
  have hlen := two_le_length_of_area c harea
  exact two_le_dpClosed_length ((0.04 * arcLength c) ^ 2) c hlen

/-- C9 (amended) witness: the Shape produced from the area-101 rectangle
has at least 2 vertices. -/
theorem spec_c9_amended_witness :
    ∃ s ∈ shapesOf [cRect101], 2 ≤ s.vertice_count := by
  refine ⟨mkShape cRect101, (mem_shapesOf_iff _ _).mpr ⟨cRect101, by simp, by rw [contourArea_gt_iff]; decide, rfl⟩, ?_⟩
  exact spec_c9_amended [cRect101] (mkShape cRect101)
    ((mem_shapesOf_iff _ _).mpr ⟨cRect101, by simp, by rw [contourArea_gt_iff]; decide, rfl⟩)

/-- C2 counterexample: the Shape record does not contain the width and
height of the bounding rectangle.  The 11-wide square and the 20-wide
rectangle produce Shapes whose entire stored coordinate datum is the same
point (0, 0), although the minimal bounding rectangles of their contours
differ in width and height, so the full rectangle is not part of the
record's bounding data. -/
theorem spec_c2_counterexample :
    (∃ s1 ∈ shapesOf [cSquare11], ∃ s2 ∈ shapesOf [cRect20],
        s1.coordinates = s2.coordinates) ∧
      boundingRect cSquare11 ≠ boundingRect cRect20 := by
  constructor
  · refine ⟨mkShape cSquare11,
      (mem_shapesOf_iff _ _).mpr ⟨cSquare11, by simp, by rw [contourArea_gt_iff]; decide, rfl⟩,
      mkShape cRect20,
      (mem_shapesOf_iff _ _).mpr ⟨cRect20, by simp, by rw [contourArea_gt_iff]; decide, rfl⟩, ?_⟩
    decide
  · decide

/-- C2 (amended): every Shape stores its vertex count, the top-left corner
(x, y) of the minimal axis-aligned bounding rectangle of the original
contour, and the contour itself; the rectangle's width and height are
computed but not stored on the Shape. -/
theorem spec_c2_amended (cs : List Contour) (s : Shape) (h : s ∈ shapesOf cs) :
    s.contour ∈ cs ∧
      s.coordinates = { x := (boundingRect s.contour).x,
                        y := (boundingRect s.contour).y } ∧
      s.vertice_count =
        (approxPolyDP s.contour (0.04 * arcLength s.contour)).length := by
  rcases (mem_shapesOf_iff cs s).mp h with ⟨c, hc, _, rfl⟩
  exact ⟨hc, rfl, rfl⟩

/-- C2 (amended) witness: the Shape of the area-101 rectangle stores the
top-left corner of its bounding rectangle and its approximation vertex
count. -/
theorem spec_c2_amended_witness :
    ∃ s ∈ shapesOf [cRect101],
      s.contour ∈ [cRect101] ∧
        s.coordinates = { x := (boundingRect s.contour).x,
                          y := (boundingRect s.contour).y } ∧
        s.vertice_count =
          (approxPolyDP s.contour (0.04 * arcLength s.contour)).length := by
  refine ⟨mkShape cRect101, (mem_shapesOf_iff _ _).mpr ⟨cRect101, by simp, by rw [contourArea_gt_iff]; decide, rfl⟩, ?_⟩
  exact spec_c2_amended [cRect101] (mkShape cRect101)
    ((mem_shapesOf_iff _ _).mpr ⟨cRect101, by simp, by rw [contourArea_gt_iff]; decide, rfl⟩)

/-- C8: the Analyze operation (`find_shapes` of `images.rs`) performs no
filesystem write on any path, whether it succeeds or fails. -/
theorem spec_c8 (env : Env) : (find_shapes_run env).2 = [] := by
  rw [find_shapes_run]
  repeat' split
  all_goals rfl

/-- C10: the `shapes` subcommand of `main` discards the result of the
shape-detection call, so main's dispatch returns success for every
environment, including any in which loading, processing, or writing
failed. -/
theorem spec_c10 (env : Env) (p : List Char) :
    (main_run env (Cmd.shapes (some p))).1 = .ok () := rfl

theorem traceLoop_none (env : Env) (op : DrawOp) :
    ∀ cs : List Contour, (∀ c ∈ cs, env.areaRes c = .ok ()) →
      (∀ c ∈ cs, ¬ contourArea c > 100) → traceLoop env op cs = .ok [] := by
  intro cs
  induction cs with
  | nil => intro _ _; rfl
  | cons c rest ih =>
      intro hA h
      rw [traceLoop, hA c (List.mem_cons_self c rest)]
      simp only []
      rw [if_neg (h c (List.mem_cons_self c rest))]
      exact ih (fun d hd => hA d (List.mem_cons_of_mem c hd))
        (fun d hd => h d (List.mem_cons_of_mem c hd))

theorem trace_core_ok (color : ℤ × ℤ × ℤ × ℤ) (maxLevel : ℤ) (env : Env)
    (path : List Char) (img gray edgesImg : Img) (cs : List Contour)
    (hI : env.imreadRes = .ok img)
    (hC : env.cvtColorRes img = .ok gray)
    (hE : env.cannyRes gray = .ok edgesImg)
    (hF : env.findContoursRes edgesImg = .ok cs)
    (hCopy : env.copyRes img = .ok ())
    (hA : ∀ c ∈ cs, env.areaRes c = .ok ())
    (hR : ∀ c ∈ cs, contourArea c > 100 →
        env.arcRes c = .ok () ∧ env.approxRes c = .ok () ∧
          env.brectRes c = .ok ())
    (hD : env.drawRes ⟨cs, -1, color, 2, maxLevel⟩ = .ok ())
    (hW : env.imwriteRes (setExtension path ("shapes.png".toList))
        (img, List.replicate (cs.countP fun c => decide (contourArea c > 100))
          ⟨cs, -1, color, 2, maxLevel⟩) = .ok ()) :
    trace_core color maxLevel env path =
      (.ok (setExtension path ("shapes.png".toList)),
       [(setExtension path ("shapes.png".toList),
         (img, List.replicate (cs.countP fun c => decide (contourArea c > 100))
           ⟨cs, -1, color, 2, maxLevel⟩))]) := by
  rw [trace_core, hI]
  simp only []
  rw [hC]
  simp only []
  rw [hE]
  simp only []
  rw [hF]
  simp only []
  rw [hCopy]
  simp only []
  rw [traceLoop_all_ok env _ hD cs hA hR]
  simp only []
  rw [hW]

theorem trace_core_cases (color : ℤ × ℤ × ℤ × ℤ) (maxLevel : ℤ) (env : Env)
    (path : List Char) :
    (∃ e, trace_core color maxLevel env path = (.error e, [])) ∨
    (∃ p ann, trace_core color maxLevel env path = (.ok p, [(p, ann)])) := by
  rw [trace_core]
  repeat' split
  all_goals first
    | exact Or.inl ⟨_, rfl⟩
    | exact Or.inr ⟨_, _, rfl⟩

theorem trace_core_no_retained (color : ℤ × ℤ × ℤ × ℤ) (maxLevel : ℤ)
    (env : Env) (path : List Char) (img gray edgesImg : Img) (cs : List Contour)
    (hI : env.imreadRes = .ok img)
    (hC : env.cvtColorRes img = .ok gray)
    (hE : env.cannyRes gray = .ok edgesImg)
    (hF : env.findContoursRes edgesImg = .ok cs)
    (hCopy : env.copyRes img = .ok ())
    (hA : ∀ c ∈ cs, env.areaRes c = .ok ())
    (hnone : ∀ c ∈ cs, ¬ contourArea c > 100)
    (hW : env.imwriteRes (setExtension path ("shapes.png".toList)) (img, []) = .ok ()) :
    trace_core color maxLevel env path =
      (.ok (setExtension path ("shapes.png".toList)),
       [(setExtension path ("shapes.png".toList), (img, []))]) := by
  rw [trace_core, hI]
  simp only []
  rw [hC]
  simp only []
  rw [hE]
  simp only []
  rw [hF]
  simp only []
  rw [hCopy]
  simp only []
  rw [traceLoop_none env _ cs hA hnone]
  simp only []
  rw [hW]

theorem area_cRect20 : contourArea cRect20 > 100 :=
  (contourArea_gt_iff _).mpr (by decide)

theorem area_not_cSmall : ¬ contourArea cSmall > 100 := fun h =>
  absurd ((contourArea_gt_iff _).mp h) (by decide)

theorem countP_cRect20_cSmall :
    ([cRect20, cSmall].countP fun c => decide (contourArea c > 100)) = 1 := by
  rw [List.countP_cons, List.countP_cons, List.countP_nil,
    decide_eq_true area_cRect20, decide_eq_false area_not_cSmall]
  simp

theorem okEnv_trace_eval :
    trace_shapes_run (okEnv [cRect20, cSmall]) ("map.png".toList) =
      (.ok ("map.shapes.png".toList),
       [(("map.shapes.png".toList),
         ((0 : Img), [⟨[cRect20, cSmall], -1, (0, 255, 0, 0), 2, 1⟩]))]) := by
  have h := trace_core_ok (0, 255, 0, 0) 1 (okEnv [cRect20, cSmall])
    ("map.png".toList) 0 1 2 [cRect20, cSmall] rfl rfl rfl rfl rfl
    (fun _ _ => rfl) (fun _ _ _ => ⟨rfl, rfl, rfl⟩) rfl rfl
  rw [trace_shapes_run, h, countP_cRect20_cSmall]
  have hdest : setExtension ("map.png".toList) ("shapes.png".toList) =
      "map.shapes.png".toList := by decide
  rw [hdest]
  rfl

/-- C3 counterexample: with one retained contour (the 20 by 11 rectangle,
area 220) and one non-retained contour (the 5 by 5 square, area 25) in the
extraction output, the written annotated image's single draw call renders
the non-retained small square as well, contradicting the claim that no
non-retained contour is drawn. -/
theorem spec_c3_counterexample :
    (trace_shapes_run (okEnv [cRect20, cSmall]) ("map.png".toList)).2 =
      [(("map.shapes.png".toList),
        ((0 : Img), [⟨[cRect20, cSmall], -1, (0, 255, 0, 0), 2, 1⟩]))] ∧
    cSmall ∈ drawnContours
      ((0 : Img), [⟨[cRect20, cSmall], -1, (0, 255, 0, 0), 2, 1⟩]) ∧
    ¬ contourArea cSmall > 100 := by
  refine ⟨?_, by decide, area_not_cSmall⟩
  rw [okEnv_trace_eval]

/-- C3 (amended): when the pipeline stages succeed, the written image is
the copy of the input image together with one draw call per retained
contour, each call drawing all extracted contours (contour index -1) in
green (0, 255, 0) with thickness 2; when no contour is retained the copy
carries no draw call at all. -/
theorem spec_c3_amended (env : Env) (path : List Char)
    (img gray edgesImg : Img) (cs : List Contour)
    (hI : env.imreadRes = .ok img)
    (hC : env.cvtColorRes img = .ok gray)
    (hE : env.cannyRes gray = .ok edgesImg)
    (hF : env.findContoursRes edgesImg = .ok cs)
    (hCopy : env.copyRes img = .ok ())
    (hA : ∀ c ∈ cs, env.areaRes c = .ok ())
    (hR : ∀ c ∈ cs, contourArea c > 100 →
        env.arcRes c = .ok () ∧ env.approxRes c = .ok () ∧
          env.brectRes c = .ok ())
    (hD : env.drawRes ⟨cs, -1, (0, 255, 0, 0), 2, 1⟩ = .ok ())
    (hW : env.imwriteRes (setExtension path ("shapes.png".toList))
        (img, List.replicate (cs.countP fun c => decide (contourArea c > 100))
          ⟨cs, -1, (0, 255, 0, 0), 2, 1⟩) = .ok ()) :
    trace_shapes_run env path =
      (.ok (setExtension path ("shapes.png".toList)),
       [(setExtension path ("shapes.png".toList),
         (img, List.replicate (cs.countP fun c => decide (contourArea c > 100))
           ⟨cs, -1, (0, 255, 0, 0), 2, 1⟩))]) := by
  rw [trace_shapes_run]
  exact trace_core_ok (0, 255, 0, 0) 1 env path img gray edgesImg cs hI hC hE hF
    hCopy hA hR hD hW

/-- C3 (amended) witness: on the concrete two-contour environment the
written image carries exactly one green thickness-2 draw call over the
whole contour vector. -/
theorem spec_c3_amended_witness :
    trace_shapes_run (okEnv [cRect20, cSmall]) ("map.png".toList) =
      (.ok (setExtension ("map.png".toList) ("shapes.png".toList)),
       [(setExtension ("map.png".toList) ("shapes.png".toList),
         ((0 : Img),
          List.replicate
            ([cRect20, cSmall].countP fun c => decide (contourArea c > 100))
            ⟨[cRect20, cSmall], -1, (0, 255, 0, 0), 2, 1⟩))]) :=
  spec_c3_amended (okEnv [cRect20, cSmall]) ("map.png".toList) 0 1 2
    [cRect20, cSmall] rfl rfl rfl rfl rfl (fun _ _ => rfl)
    (fun _ _ _ => ⟨rfl, rfl, rfl⟩) rfl rfl

/-- C4: if any stage of the trace pipeline fails the caller receives that
single error and nothing is written; a write happens only on a fully
successful run, and then it is the single annotated output file at the
returned path. -/
theorem spec_c4 (env : Env) (path : List Char) :
    (∀ e, (trace_shapes_run env path).1 = .error e →
        (trace_shapes_run env path).2 = []) ∧
    (∀ p, (trace_shapes_run env path).1 = .ok p →
        ∃ ann, (trace_shapes_run env path).2 = [(p, ann)]) := by
  rcases trace_core_cases (0, 255, 0, 0) 1 env path with ⟨e, he⟩ | ⟨p, ann, hp⟩
  · constructor
    · intro e2 h
      rw [trace_shapes_run, he]
    · intro p h
      rw [trace_shapes_run, he] at h
      exact absurd h (by simp)
  · constructor
    · intro e h
      rw [trace_shapes_run, hp] at h
      exact absurd h (by simp)
    · intro p2 h
      rw [trace_shapes_run, hp] at h ⊢
      have hpp : p = p2 := Except.ok.inj h
      exact ⟨ann, by rw [hpp]⟩

theorem approxFailEnv_eval :
    trace_shapes_run approxFailEnv ("map.png".toList) =
      (.error "degenerate", []) := by
  have hloop : traceLoop approxFailEnv
      ⟨[cRect20, cSmall], -1, (0, 255, 0, 0), 2, 1⟩ [cRect20, cSmall] =
      .error "degenerate" := by
    rw [traceLoop]
    rw [show approxFailEnv.areaRes cRect20 = .ok () from rfl]
    simp only []
    rw [if_pos area_cRect20]
    rw [show approxFailEnv.arcRes cRect20 = .ok () from rfl]
    simp only []
    rw [show approxFailEnv.approxRes cRect20 = .error "degenerate" from rfl]
  rw [trace_shapes_run, trace_core]
  rw [show approxFailEnv.imreadRes = .ok 0 from rfl]
  simp only []
  rw [show approxFailEnv.cvtColorRes 0 = .ok 1 from rfl]
  simp only []
  rw [show approxFailEnv.cannyRes 1 = .ok 2 from rfl]
  simp only []
  rw [show approxFailEnv.findContoursRes 2 = .ok [cRect20, cSmall] from rfl]
  simp only []
  rw [show approxFailEnv.copyRes 0 = .ok () from rfl]
  simp only []
  rw [hloop]

/-- C4 witness: a failing decode writes nothing, a failing approximation
stage (ProcessingError on a retained contour) aborts the run with that
single error and writes nothing, and the fully successful concrete run
writes exactly one file at the returned path. -/
theorem spec_c4_witness :
    (trace_shapes_run failEnv ("map.png".toList)).2 = [] ∧
    (trace_shapes_run approxFailEnv ("map.png".toList)).2 = [] ∧
    ∃ ann, (trace_shapes_run (okEnv [cRect20, cSmall]) ("map.png".toList)).2 =
      [(("map.shapes.png".toList), ann)] := by
  refine ⟨?_, ?_, ?_⟩
  · exact (spec_c4 failEnv ("map.png".toList)).1 "io" rfl
  · exact (spec_c4 approxFailEnv ("map.png".toList)).1 "degenerate"
      (by rw [approxFailEnv_eval])
  · exact (spec_c4 (okEnv [cRect20, cSmall]) ("map.png".toList)).2
      ("map.shapes.png".toList) (by rw [okEnv_trace_eval])

/-- C6: the destination path replaces only the final extension of the
input path with "shapes.png", and every successful trace run returns
exactly that derived path. -/
theorem spec_c6 :
    (∀ stem ext : List Char, stem ≠ [] → '.' ∉ ext →
        setExtension (stem ++ '.' :: ext) ("shapes.png".toList) =
          stem ++ '.' :: ("shapes.png".toList)) ∧
    (∀ (env : Env) (path p : List Char),
        (trace_shapes_run env path).1 = .ok p →
        p = setExtension path ("shapes.png".toList)) := by
  constructor
  · intro stem ext hs hx
    exact setExtension_append stem ext ("shapes.png".toList) hs hx
  · intro env path p h
    rcases trace_core_cases (0, 255, 0, 0) 1 env path with ⟨e, he⟩ | ⟨p2, ann, hp⟩
    · rw [trace_shapes_run, he] at h
      exact absurd h (by simp)
    · rw [trace_shapes_run, hp] at h
      have hp2 : p2 = p := Except.ok.inj h
      have hform := trace_core_cases (0, 255, 0, 0) 1 env path
      rw [← hp2]
      rw [trace_core] at hp
      revert hp
      repeat' split
      all_goals intro hp
      all_goals first
        | exact (Except.ok.inj (congrArg Prod.fst hp)).symm
        | exact absurd (congrArg Prod.fst hp) (by simp)

/-- C6 witness: "map.png" derives to "map.shapes.png", "scan.v2.jpg"
derives to "scan.v2.shapes.png", and the concrete successful run returns
the derived path. -/
theorem spec_c6_witness :
    setExtension ("map.png".toList) ("shapes.png".toList) =
      "map.shapes.png".toList ∧
    setExtension ("scan.v2.jpg".toList) ("shapes.png".toList) =
      "scan.v2.shapes.png".toList ∧
    ("map.shapes.png".toList) =
      setExtension ("map.png".toList) ("shapes.png".toList) := by
  have h1 := spec_c6.1 ("map".toList) ("png".toList) (by decide) (by decide)
  have h2 := spec_c6.1 ("scan.v2".toList) ("jpg".toList) (by decide) (by decide)
  have h3 := spec_c6.2 (okEnv [cRect20, cSmall]) ("map.png".toList)
    ("map.shapes.png".toList) (by rw [okEnv_trace_eval])
  refine ⟨?_, ?_, h3⟩
  · have : "map".toList ++ '.' :: ("png".toList) = "map.png".toList := by decide
    rw [← this, h1]
    decide
  · have : "scan.v2".toList ++ '.' :: ("jpg".toList) = "scan.v2.jpg".toList := by
      decide
    rw [← this, h2]
    decide

/-- C7: when no extracted contour has area above 100, Analyze returns the
empty Shape list and the trace operation writes an annotated image with no
draw call, i.e. a pixel-identical copy of the decoded input. -/
theorem spec_c7 (env : Env) (path : List Char)
    (img gray edgesImg : Img) (cs : List Contour)
    (hI : env.imreadRes = .ok img)
    (hC : env.cvtColorRes img = .ok gray)
    (hE : env.cannyRes gray = .ok edgesImg)
    (hF : env.findContoursRes edgesImg = .ok cs)
    (hCopy : env.copyRes img = .ok ())
    (hA : ∀ c ∈ cs, env.areaRes c = .ok ())
    (hnone : ∀ c ∈ cs, ¬ contourArea c > 100)
    (hW : env.imwriteRes (setExtension path ("shapes.png".toList))
        (img, []) = .ok ()) :
    find_shapes_run env = (.ok [], []) ∧
    trace_shapes_run env path =
      (.ok (setExtension path ("shapes.png".toList)),
       [(setExtension path ("shapes.png".toList), (img, []))]) := by
  constructor
  · rw [find_shapes_run, hI]
    simp only []
    rw [hC]
    simp only []
    rw [hE]
    simp only []
    rw [hF]
    simp only []
    rw [shapesOf_eq_nil cs hnone]
  · rw [trace_shapes_run]
    exact trace_core_no_retained (0, 255, 0, 0) 1 env path img gray edgesImg cs
      hI hC hE hF hCopy hA hnone hW

/-- C7 witness: with only the small 5 by 5 square extracted, Analyze
returns no Shape and the trace writes the unannotated copy. -/
theorem spec_c7_witness :
    find_shapes_run (okEnv [cSmall]) = (.ok [], []) ∧
    trace_shapes_run (okEnv [cSmall]) ("map.png".toList) =
      (.ok (setExtension ("map.png".toList) ("shapes.png".toList)),
       [(setExtension ("map.png".toList) ("shapes.png".toList),
         ((0 : Img), []))]) :=
  spec_c7 (okEnv [cSmall]) ("map.png".toList) 0 1 2 [cSmall] rfl rfl rfl rfl
    rfl (fun _ _ => rfl)
    (by intro c hc; rw [List.mem_singleton] at hc; rw [hc]; exact area_not_cSmall)
    rfl

theorem arc_cThin : arcLength cThin = 2002 := by
  rw [arcLength]
  simp only [cThin, edges, List.drop, List.take, List.zip_cons_cons, List.zip_nil_right,
    List.map_cons, List.map_nil, List.sum_cons, List.sum_nil, List.cons_append,
    List.nil_append, distSq]
  have h6 : Real.sqrt 1000000 = 1000 := by
    rw [show (1000000 : ℝ) = 1000 ^ 2 by norm_num]
    exact Real.sqrt_sq (by norm_num)
  norm_num [h6]

theorem dpOpen_single_le (ε2 : ℝ) (a p b : Pt)
    (h : ¬ (((cross2 a b p) ^ 2 : ℤ) : ℝ) > ε2 * ((distSq a b : ℤ) : ℝ)) :
    dpOpen ε2 a [p] b = [a] := by
  rw [dpOpen]
  simp only [idxOfMax, idxOfMaxAux, List.getD_cons_zero]
  rw [if_neg h]

theorem dp_closed_cThin :
    dpClosed ((0.04 * 2002 : ℝ) ^ 2) cThin =
      dpOpen ((0.04 * 2002 : ℝ) ^ 2) (0, 0) [((1000 : ℤ), (0 : ℤ))] (1000, 1) ++
      dpOpen ((0.04 * 2002 : ℝ) ^ 2) (1000, 1) [((0 : ℤ), (1 : ℤ))] (0, 0) := by
  simp only [cThin, dpClosed]
  norm_num [idxOfMax, idxOfMaxAux, distSq]

/-- C9 counterexample: the 1000 by 1 rectangle has area 1000, so it passes
the area filter, but its perimeter is 2002 and the approximation tolerance
0.04 times the perimeter is about 80 pixels, far more than its 1-pixel
thickness, so the Douglas-Peucker simplification collapses it to 2
vertices: the produced Shape has vertex count 2, refuting the claimed
lower bound of 3. -/
theorem spec_c9_counterexample :
    ∃ s ∈ shapesOf [cThin], s.vertice_count = 2 := by
  have harea : contourArea cThin > 100 := (contourArea_gt_iff _).mpr (by decide)
  refine ⟨mkShape cThin, (mem_shapesOf_iff _ _).mpr ⟨cThin, by simp, harea, rfl⟩, ?_⟩
  show (approxPolyDP cThin (0.04 * arcLength cThin)).length = 2
  rw [arc_cThin, approxPolyDP, dp_closed_cThin,
    dpOpen_single_le _ _ _ _ (by norm_num [cross2, distSq]),
    dpOpen_single_le _ _ _ _ (by norm_num [cross2, distSq])]
  rfl

end DDraft
